import Mathlib

/-!
Verification of the depth-to-blur compositing core of the auto-focus
service in src/main.py.

The Python/numpy code works on 2-D float arrays and 3-channel uint8
images.  The shallow embedding below represents

* a depth map or blur mask as a row-major grid of exact rationals,
  of type List (List Rat);
* an image as a grid of pixels, each pixel a list of uint8 channel
  values, of type List (List (List Nat));
* IEEE NaN/Inf, which arise only from the unguarded division in the
  normalization step, as Option.none;
* the Gaussian smoothing kernels produced by cv2.GaussianBlur as an
  explicit kernel parameter (a (2r+1) by (2r+1) grid of rationals),
  because the concrete Gaussian weights are transcendental (exp) and
  have no exact rational form.  The real kernels are nonnegative and
  sum to 1; theorems that depend on the kernel take exactly those two
  facts as hypotheses.  Border handling follows cv2 BORDER_REFLECT_101.
-/

/-- Flatten a grid into the row-major list of its entries
(numpy operations such as min, max, median flatten the array). -/
def gvals (g : List (List ℚ)) : List ℚ := g.flatten

/-- Entry of a rational grid at row y, column x, defaulting to 0
out of range. -/
def gridGet (g : List (List ℚ)) (y x : ℕ) : ℚ := (g.getD y []).getD x 0

/-- Pixel of an image at row y, column x (list of channel values). -/
def pxGet (img : List (List (List ℕ))) (y x : ℕ) : List ℕ :=
  (img.getD y []).getD x []

/-- Channel c of the pixel at row y, column x of an image. -/
def chGet (img : List (List (List ℕ))) (y x c : ℕ) : ℕ :=
  (pxGet img y x).getD c 0

/-- The grid has exactly hh rows, each of length ww
(numpy arrays are rectangular). -/
abbrev Rect (g : List (List ℚ)) (hh ww : ℕ) : Prop :=
  g.length = hh ∧ ∀ row ∈ g, row.length = ww

/-- The image has hh rows of ww pixels, every pixel with nc channels. -/
abbrev RectI (img : List (List (List ℕ))) (hh ww nc : ℕ) : Prop :=
  img.length = hh ∧ ∀ row ∈ img, row.length = ww ∧ ∀ px ∈ row, px.length = nc

/-- Minimum of a list of rationals (numpy ndarray.min on the
flattened array; the empty case never occurs in the code paths we
model and is given the harmless default 0). -/
def listMin : List ℚ → ℚ
  | [] => 0
  | [a] => a
  | a :: b :: t => min a (listMin (b :: t))

/-- Maximum of a list of rationals (numpy ndarray.max). -/
def listMax : List ℚ → ℚ
  | [] => 0
  | [a] => a
  | a :: b :: t => max a (listMax (b :: t))

/-- Minimum entry of a depth map, as in depth_map.min() (main.py line 76). -/
def gmin (g : List (List ℚ)) : ℚ := listMin (gvals g)

/-- Maximum entry of a depth map, as in depth_map.max() (main.py line 76). -/
def gmax (g : List (List ℚ)) : ℚ := listMax (gvals g)

/-- One entry of the min-max rescale (depth_map - min) / (max - min)
on main.py line 76.  numpy float division by zero does not raise: when
max = min every entry becomes 0/0 = NaN, modelled here as none. -/
def normVal (mn mx v : ℚ) : Option ℚ :=
  if mx - mn = 0 then none else some ((v - mn) / (mx - mn))

/-- The normalization step of the DepthNormalizer, main.py line 76
(the tail of the private depth-estimation helper; the MiDaS network in
front of it is the external collaborator and is not part of the core).
An entry of none is an IEEE NaN. -/
def normalize_depth (m : List (List ℚ)) : List (List (Option ℚ)) :=
  m.map (fun row => row.map (normVal (gmin m) (gmax m)))

/-- The rational values of the normalized map in the non-degenerate
case, used to state idempotence of normalization. -/
def normGrid (m : List (List ℚ)) : List (List ℚ) :=
  m.map (fun row => row.map (fun v => (v - gmin m) / (gmax m - gmin m)))

/-- Index mapping of cv2 BORDER_REFLECT_101 (the GaussianBlur default):
coordinates reflect about the border pixels without repeating them, so
-1 maps to 1 and n maps to n-2.  On an axis of length 1 OpenCV's
borderInterpolate returns 0 for every coordinate. -/
def reflect101 (n : ℕ) (i : ℤ) : ℕ :=
  if n ≤ 1 then 0
  else
    let p := i.emod (2 * ((n : ℤ) - 1))
    if p < (n : ℤ) then p.toNat else (2 * ((n : ℤ) - 1) - p).toNat

/-- Truncation toward zero, the rounding used by a C float-to-integer
cast and hence by numpy ndarray.astype. -/
def qtrunc (q : ℚ) : ℤ := if q < 0 then -⌊-q⌋ else ⌊q⌋

/-- numpy astype(np.uint8): truncate toward zero, then keep the low
8 bits (the conversion wraps, it does not saturate). -/
def npToUint8 (q : ℚ) : ℕ := ((qtrunc q).emod 256).toNat

/-- Conversion of a filter output to uint8 inside cv2.GaussianBlur on
a uint8 image: round to nearest and saturate into 0..255. -/
def cvRoundU8 (q : ℚ) : ℕ := min 255 (Int.toNat ⌊q + 1 / 2⌋)

/-- Modelled from the spec: the output conversion the spec claims for
the compositor, namely the float blend rounded to the nearest integer
and clamped into 0..255.  Compared against the code's astype
truncation in claim C9. -/
def roundClamp255 (q : ℚ) : ℕ := min 255 (Int.toNat ⌊q + 1 / 2⌋)

/-- One output sample of a 2-D correlation of the kernel k (of extent
2r+1 in each axis, anchored at its centre) with a rational grid of
height hh and width ww, with reflect-101 border handling.  This is the
arithmetic cv2.GaussianBlur performs at one pixel, with the kernel
left as a parameter. -/
def convAt (k : List (List ℚ)) (r : ℕ) (g : List (List ℚ))
    (hh ww y x : ℕ) : ℚ :=
  ((List.range (2 * r + 1)).map (fun dy =>
    ((List.range (2 * r + 1)).map (fun dx =>
      gridGet k dy dx *
        gridGet g (reflect101 hh ((y : ℤ) + dy - r))
                  (reflect101 ww ((x : ℤ) + dx - r)))).sum)).sum

/-- cv2.GaussianBlur on a float grid (used on the blur mask at
main.py line 125), with the kernel as a parameter. -/
def gaussian_blur_q (k : List (List ℚ)) (r : ℕ) (g : List (List ℚ)) :
    List (List ℚ) :=
  (List.range g.length).map (fun y =>
    (List.range ((g.getD 0 []).length)).map (fun x =>
      convAt k r g g.length ((g.getD 0 []).length) y x))

/-- Total weight of a smoothing kernel; a genuine Gaussian kernel has
total weight 1. -/
def kSum (k : List (List ℚ)) : ℚ := (k.map List.sum).sum

/-- One channel sample of cv2.GaussianBlur on a uint8 image. -/
def imgConvAt (k : List (List ℚ)) (r : ℕ) (img : List (List (List ℕ)))
    (y x c : ℕ) : ℚ :=
  ((List.range (2 * r + 1)).map (fun dy =>
    ((List.range (2 * r + 1)).map (fun dx =>
      gridGet k dy dx *
        (chGet img (reflect101 img.length ((y : ℤ) + dy - r))
                   (reflect101 ((img.getD 0 []).length) ((x : ℤ) + dx - r))
                   c : ℚ))).sum)).sum

/-- cv2.GaussianBlur on a uint8 image (main.py lines 138 and 164):
per-channel correlation with the kernel, rounded and saturated back to
uint8. -/
def imgBlurU8 (k : List (List ℚ)) (r : ℕ) (img : List (List (List ℕ))) :
    List (List (List ℕ)) :=
  (List.range img.length).map (fun y =>
    (List.range ((img.getD 0 []).length)).map (fun x =>
      (List.range (((img.getD 0 []).getD 0 []).length)).map (fun c =>
        cvRoundU8 (imgConvAt k r img y x c))))

/-- np.max of the per-pixel distance to the focus plane
(main.py line 115). -/
def maxDist (m : List (List ℚ)) (fp : ℚ) : ℚ :=
  listMax ((gvals m).map (fun d => |d - fp|))

/-- One entry of the pre-smoothing blur-intensity map of
_create_blur_mask (main.py lines 108-122): normalized distance from
the focus plane, zeroed inside the focus-range band, and all-zero
when the map's maximal distance is not positive. -/
def maskVal (md fp fr d : ℚ) : ℚ :=
  if |d - fp| ≤ fr then 0 else if 0 < md then |d - fp| / md else 0

/-- The pre-smoothing blur-intensity grid of _create_blur_mask
(main.py lines 108-122). -/
def blur_intensity (m : List (List ℚ)) (fp fr : ℚ) : List (List ℚ) :=
  m.map (fun row => row.map (maskVal (maxDist m fp) fp fr))

/-- _create_blur_mask (main.py lines 103-127): normalized, banded
distance from the focus plane, then smoothed with the 21x21 Gaussian
kernel, which appears here as the parameter k with radius r. -/
def create_blur_mask (k : List (List ℚ)) (r : ℕ) (m : List (List ℚ))
    (fp fr : ℚ) : List (List ℚ) :=
  gaussian_blur_q k r (blur_intensity m fp fr)

/-- The central sub-region of _find_subject_focus_plane (main.py
lines 85-87): Python slices the rows from height div 4 to
3*height div 4 and the columns from width div 4 to 3*width div 4,
with floor division and exclusive upper ends. -/
def center_region (m : List (List ℚ)) : List (List ℚ) :=
  ((m.drop (m.length / 4)).take (3 * m.length / 4 - m.length / 4)).map
    (fun row =>
      (row.drop (row.length / 4)).take (3 * row.length / 4 - row.length / 4))

/-- np.median: sort ascending, take the middle element for odd length
or the mean of the two middle elements for even length; on an empty
array numpy produces NaN, modelled as none. -/
def npMedian (l : List ℚ) : Option ℚ :=
  let s := List.insertionSort (fun a b => a ≤ b) l
  if s.length = 0 then none
  else if s.length % 2 = 1 then some (s.getD (s.length / 2) 0)
  else some ((s.getD (s.length / 2 - 1) 0 + s.getD (s.length / 2) 0) / 2)

/-- Lower edge of the 50-bin histogram range of np.histogram: the data
minimum, padded down by 1/2 when the data are constant (numpy expands
a zero-width range to (v - 0.5, v + 0.5)). -/
def histLo (l : List ℚ) : ℚ :=
  if listMin l = listMax l then listMin l - 1 / 2 else listMin l

/-- Upper edge of the np.histogram range, padded up by 1/2 when the
data are constant. -/
def histHi (l : List ℚ) : ℚ :=
  if listMin l = listMax l then listMax l + 1 / 2 else listMax l

/-- Bin index of a value v in a 50-bin histogram over the range
lo..hi: bins are half-open except the last, which is closed, so in
exact arithmetic the index is min (floor ((v-lo)*50/(hi-lo))) 49. -/
def binIdx (lo hi v : ℚ) : ℕ :=
  min (Int.toNat ⌊(v - lo) * 50 / (hi - lo)⌋) 49

/-- Bin counts of np.histogram(center_region.flatten(), bins=50)
(main.py line 94). -/
def histCounts (l : List ℚ) : List ℕ :=
  (List.range 50).map (fun i =>
    (l.filter (fun v => binIdx (histLo l) (histHi l) v = i)).length)

/-- np.argmax: index of the first occurrence of the maximal entry. -/
def argmaxFirst (l : List ℕ) : ℕ :=
  (List.range l.length).foldl
    (fun best i => if l.getD best 0 < l.getD i 0 then i else best) 0

/-- The histogram-mode focus estimate of main.py lines 94-96: midpoint
of the fullest bin, (bin_edges[i] + bin_edges[i+1]) / 2 with
bin_edges j = lo + j*(hi-lo)/50. -/
def mode_estimate (l : List ℚ) : ℚ :=
  let lo := histLo l
  let hi := histHi l
  let i := argmaxFirst (histCounts l)
  ((lo + (i : ℚ) * (hi - lo) / 50) + (lo + ((i : ℚ) + 1) * (hi - lo) / 50)) / 2

/-- _find_subject_focus_plane (main.py lines 80-101): average of the
median depth of the central sub-region and the midpoint of the fullest
bin of its 50-bin histogram.  The result is none (NaN) exactly when
the central sub-region is empty; the function has no other failure
path. -/
def find_subject_focus_plane (m : List (List ℚ)) : Option ℚ :=
  match npMedian (gvals (center_region m)) with
  | none => none
  | some med => some ((med + mode_estimate (gvals (center_region m))) / 2)

/-- Ternary zip used to express the vectorized per-pixel blend. -/
def zipWith3 (f : α → β → γ → δ) : List α → List β → List γ → List δ
  | a :: as, b :: bs, c :: cs => f a b c :: zipWith3 f as bs cs
  | _, _, _ => []

/-- _apply_depth_blur_optimized (main.py lines 158-173): one heavily
blurred rendition with kernel extent 2r+1 (kernel passed as k), then
the per-pixel per-channel blend (1-mask)*original + mask*blurred,
followed by astype(np.uint8). -/
def apply_depth_blur_optimized (k : List (List ℚ)) (r : ℕ)
    (img : List (List (List ℕ))) (mask : List (List ℚ)) :
    List (List (List ℕ)) :=
  let blurred := imgBlurU8 k r img
  zipWith3 (fun irow mrow brow =>
    zipWith3 (fun (px : List ℕ) (m : ℚ) (bpx : List ℕ) =>
      List.zipWith (fun (cv bv : ℕ) =>
        npToUint8 ((1 - m) * (cv : ℚ) + m * (bv : ℚ))) px bpx)
      irow mrow brow)
    img mask blurred

/-- The blur pyramid of the naive compositor (main.py lines 136-139):
one Gaussian-blurred rendition for each odd i = 1, 3, ..., up to
max_blur_radius, with the kernel family passed as gauss. -/
def blur_levels (gauss : ℕ → List (List ℚ)) (img : List (List (List ℕ)))
    (maxR : ℕ) : List (List (List (List ℕ))) :=
  (List.range' 1 ((maxR + 1) / 2) 2).map (fun i => imgBlurU8 (gauss i) i img)

/-- _apply_depth_blur, the naive per-pixel compositor (main.py lines
129-156): pixels whose mask entry is strictly positive are blended in
float against the selected pyramid level; all entries then pass
through astype(np.uint8). -/
def apply_depth_blur (gauss : ℕ → List (List ℚ))
    (img : List (List (List ℕ))) (mask : List (List ℚ)) (maxR : ℕ) :
    List (List (List ℕ)) :=
  let levels := blur_levels gauss img maxR
  let n := levels.length
  (List.range img.length).map (fun y =>
    (List.range ((img.getD y []).length)).map (fun x =>
      let m := gridGet mask y x
      let px := pxGet img y x
      if 0 < m then
        let idx := min (Int.toNat ⌊m * (n : ℚ)⌋) (n - 1)
        List.zipWith (fun (cv bv : ℕ) =>
          npToUint8 ((1 - m) * (cv : ℚ) + m * (bv : ℚ)))
          px (pxGet (levels.getD idx []) y x)
      else px.map (fun (cv : ℕ) => npToUint8 (cv : ℚ))))

/-- The error outcomes of the service, named after the spec's error
kinds: FileNotImage and InvalidParameter are the HTTP 400 rejections
of the /auto-focus endpoint, ModelNotLoaded the HTTP 503, and
ProcessingFailed the blanket HTTP 500 raised when processing throws. -/
inductive ApiError where
  | FileNotImage
  | InvalidParameter
  | ModelNotLoaded
  | ProcessingFailed
deriving DecidableEq

/-- All-some check on a normalized map: some of the value grid when no
entry is NaN, none otherwise. -/
def stripGrid (g : List (List (Option ℚ))) : Option (List (List ℚ)) :=
  g.mapM (fun row => row.mapM id)

/-- process_auto_focus (main.py lines 175-253).  External collaborators
are injected: gauss i is the Gaussian kernel of radius i (the mask
smoothing uses radius 10, i.e. the 21x21 kernel), raw_depth is the
MiDaS output at processing resolution, and image decoding, resizing
and re-encoding are outside the core.  The paths on which the float
code silently carries NaN values (a flat raw depth map, or an empty
central sub-region) are modelled as the opaque ProcessingFailed
outcome, since exact rationals have no NaN; no claim below depends on
behaviour past those points.  A focus_strength of exactly 0 makes
Python's 0.1 / focus_strength raise ZeroDivisionError, which the
blanket except turns into the HTTP 500, hence ProcessingFailed. -/
def process_auto_focus (models_loaded : Bool)
    (gauss : ℕ → List (List ℚ)) (raw_depth : List (List ℚ))
    (image_np : List (List (List ℕ))) (focus_strength : ℚ)
    (blur_radius : ℕ) : Except ApiError (List (List (List ℕ)) × ℚ) :=
  if models_loaded = false then .error .ModelNotLoaded
  else
    match stripGrid (normalize_depth raw_depth) with
    | none => .error .ProcessingFailed
    | some depth_map =>
      match find_subject_focus_plane depth_map with
      | none => .error .ProcessingFailed
      | some focus_plane =>
        if focus_strength = 0 then .error .ProcessingFailed
        else
          let focus_range := (1 / 10) / focus_strength
          let mask := create_blur_mask (gauss 10) 10 depth_map
            focus_plane focus_range
          .ok (apply_depth_blur_optimized (gauss blur_radius) blur_radius
            image_np mask, focus_plane)

/-- The /auto-focus endpoint (main.py lines 263-302): reject non-image
uploads, then reject focus_strength outside 0.1..3.0 and blur_radius
outside 3..50 with HTTP 400 (the spec's InvalidParameter), and only
then run process_auto_focus.  The focus_range division happens inside
process_auto_focus, after these checks. -/
def auto_focus_blur (is_image_file : Bool) (models_loaded : Bool)
    (gauss : ℕ → List (List ℚ)) (raw_depth : List (List ℚ))
    (image_np : List (List (List ℕ))) (focus_strength : ℚ)
    (blur_radius : ℤ) : Except ApiError (List (List (List ℕ)) × ℚ) :=
  if is_image_file = false then .error .FileNotImage
  else if ¬ (1 / 10 ≤ focus_strength ∧ focus_strength ≤ 3) then
    .error .InvalidParameter
  else if ¬ (3 ≤ blur_radius ∧ blur_radius ≤ 50) then
    .error .InvalidParameter
  else
    process_auto_focus models_loaded gauss raw_depth image_np
      focus_strength blur_radius.toNat

/-! ### Helper lemmas about listMin, listMax and grids -/

theorem listMin_le {l : List ℚ} {a : ℚ} (ha : a ∈ l) : listMin l ≤ a := by
  induction l with
  | nil => cases ha
  | cons b t ih =>
    cases t with
    | nil =>
      rcases List.mem_singleton.mp ha with rfl
      simp [listMin]
    | cons c t2 =>
      rcases List.mem_cons.mp ha with rfl | h2
      · exact min_le_left _ _
      · exact le_trans (min_le_right _ _) (ih h2)

theorem le_listMax {l : List ℚ} {a : ℚ} (ha : a ∈ l) : a ≤ listMax l := by
  induction l with
  | nil => cases ha
  | cons b t ih =>
    cases t with
    | nil =>
      rcases List.mem_singleton.mp ha with rfl
      simp [listMax]
    | cons c t2 =>
      rcases List.mem_cons.mp ha with rfl | h2
      · exact le_max_left _ _
      · exact le_trans (ih h2) (le_max_right _ _)

theorem listMin_mem {l : List ℚ} (h : l ≠ []) : listMin l ∈ l := by
  induction l with
  | nil => exact absurd rfl h
  | cons b t ih =>
    cases t with
    | nil => simp [listMin]
    | cons c t2 =>
      rcases le_total b (listMin (c :: t2)) with hle | hle
      · simp [listMin, min_eq_left hle]
      · simp only [listMin, min_eq_right hle]
        exact List.mem_cons_of_mem _ (ih (by simp))

theorem listMax_mem {l : List ℚ} (h : l ≠ []) : listMax l ∈ l := by
  induction l with
  | nil => exact absurd rfl h
  | cons b t ih =>
    cases t with
    | nil => simp [listMax]
    | cons c t2 =>
      rcases le_total (listMax (c :: t2)) b with hle | hle
      · simp [listMax, max_eq_left hle]
      · simp only [listMax, max_eq_right hle]
        exact List.mem_cons_of_mem _ (ih (by simp))

theorem listMin_le_listMax {l : List ℚ} (h : l ≠ []) : listMin l ≤ listMax l :=
  le_trans (listMin_le (listMax_mem h)) (le_refl _)

theorem npMedian_some {l : List ℚ} (h : l ≠ []) : ∃ q, npMedian l = some q := by
  have h0 : ¬ ((List.insertionSort (fun a b => a ≤ b) l).length = 0) := by
    rw [List.length_insertionSort]
    exact fun hc => h (List.length_eq_zero.mp hc)
  by_cases hp : (List.insertionSort (fun a b => a ≤ b) l).length % 2 = 1
  · exact ⟨_, by simp only [npMedian, if_neg h0, if_pos hp]; rfl⟩
  · exact ⟨_, by simp only [npMedian, if_neg h0, if_neg hp]; rfl⟩

theorem focus_plane_some_of_nonempty {m : List (List ℚ)}
    (hne : gvals (center_region m) ≠ []) :
    ∃ q, find_subject_focus_plane m = some q := by
  obtain ⟨med, hmed⟩ := npMedian_some hne
  exact ⟨_, by simp only [find_subject_focus_plane, hmed]; rfl⟩

/-! ### C1, C7, C8 -/

/-- C1: the spec defines the DepthNormalizer's output on a flat map
(max = min) to be all zeros with no NaN propagation, but line 76 of
main.py has no guard: on a flat map every entry is (v - min)/(max - min)
= 0/0 = NaN.  This theorem evaluates the normalization at the flat
2x2 map with all entries 1/2: every output entry is NaN (none), and in
particular the output is not the all-zero map the spec requires. -/
theorem C1_flat_map_yields_nan :
    normalize_depth [[1/2, 1/2], [1/2, 1/2]] = [[none, none], [none, none]] ∧
      normalize_depth [[1/2, 1/2], [1/2, 1/2]] ≠
        [[some 0, some 0], [some 0, some 0]] := by
  have he : normalize_depth [[1/2, 1/2], [1/2, 1/2]] =
      [[none, none], [none, none]] := by
    norm_num [normalize_depth, normVal, gmin, gmax, gvals, listMin, listMax]
  exact ⟨he, by rw [he]; simp⟩

/-- C7: a focus_strength of exactly 0 is rejected by the endpoint's
parameter validation (main.py lines 281-282) with the InvalidParameter
outcome, before process_auto_focus computes
focus_range = 0.1 / focus_strength on line 209, so no division by zero
is ever performed on that path. -/
theorem C7_invalid_parameter (models_loaded : Bool)
    (gauss : ℕ → List (List ℚ)) (raw_depth : List (List ℚ))
    (image_np : List (List (List ℕ))) (focus_strength : ℚ)
    (blur_radius : ℤ) (hfs : focus_strength = 0) :
    auto_focus_blur true models_loaded gauss raw_depth image_np
      focus_strength blur_radius = .error .InvalidParameter := by
  subst hfs
  norm_num [auto_focus_blur]

/-- Witness for C7 at a concrete request. -/
theorem C7_witness :
    auto_focus_blur true true (fun _ => [[1]]) [[0]] [[[0]]] 0 15 =
      .error .InvalidParameter :=
  C7_invalid_parameter true (fun _ => [[1]]) [[0]] [[[0]]] 0 15 rfl

/-- C8 counterexample: the claim says a central sub-region with height
or width below 4 pixels makes the estimator fail with
InsufficientResolution, but _find_subject_focus_plane contains no size
check at all.  On a 6x6 depth map the central sub-region is 3x3 and
the function still returns a value. -/
theorem C8_counterexample :
    (center_region [[0, 0, 0, 0, 0, 0], [0, 1/4, 1/2, 3/4, 0, 0],
        [0, 1/2, 1/4, 1/2, 0, 0], [0, 3/4, 1/2, 1/4, 0, 0],
        [0, 0, 0, 0, 0, 0], [0, 0, 0, 0, 0, 0]]).length = 3 ∧
      ((center_region [[0, 0, 0, 0, 0, 0], [0, 1/4, 1/2, 3/4, 0, 0],
        [0, 1/2, 1/4, 1/2, 0, 0], [0, 3/4, 1/2, 1/4, 0, 0],
        [0, 0, 0, 0, 0, 0], [0, 0, 0, 0, 0, 0]]).getD 0 []).length = 3 ∧
      (find_subject_focus_plane [[0, 0, 0, 0, 0, 0], [0, 1/4, 1/2, 3/4, 0, 0],
        [0, 1/2, 1/4, 1/2, 0, 0], [0, 3/4, 1/2, 1/4, 0, 0],
        [0, 0, 0, 0, 0, 0], [0, 0, 0, 0, 0, 0]]).isSome = true := by
  refine ⟨rfl, rfl, ?_⟩
  obtain ⟨q, hq⟩ := focus_plane_some_of_nonempty (m := [[0, 0, 0, 0, 0, 0],
    [0, 1/4, 1/2, 3/4, 0, 0], [0, 1/2, 1/4, 1/2, 0, 0],
    [0, 3/4, 1/2, 1/4, 0, 0], [0, 0, 0, 0, 0, 0], [0, 0, 0, 0, 0, 0]])
    (by simp [center_region, gvals])
  rw [hq]
  rfl

/-- C8 amended: _find_subject_focus_plane performs no minimum-size
check and has no InsufficientResolution failure; for every depth map
whose central sub-region is nonempty (including sub-regions with
height or width below 4) it returns a value.  Its only undefined case
is an empty sub-region, where numpy's median of an empty array yields
NaN. -/
theorem C8_amended (m : List (List ℚ))
    (hne : gvals (center_region m) ≠ []) :
    ∃ q, find_subject_focus_plane m = some q :=
  focus_plane_some_of_nonempty hne

/-- Witness for C8 amended at a concrete 6x6 map. -/
theorem C8_witness :
    ∃ q, find_subject_focus_plane [[1/4, 1/2], [3/4, 1]] = some q :=
  C8_amended [[1/4, 1/2], [3/4, 1]] (by simp [center_region, gvals])

theorem listMin_map_mono {f : ℚ → ℚ} (hf : Monotone f) :
    ∀ {l : List ℚ}, l ≠ [] → listMin (l.map f) = f (listMin l) := by
  intro l
  induction l with
  | nil => intro h; exact absurd rfl h
  | cons b t ih =>
    intro _
    cases t with
    | nil => rfl
    | cons c t2 =>
      have h1 : listMin (List.map f (b :: c :: t2)) =
          min (f b) (listMin (List.map f (c :: t2))) := rfl
      have h2 : listMin (b :: c :: t2) = min b (listMin (c :: t2)) := rfl
      rw [h1, ih (by simp), h2, hf.map_min]

theorem listMax_map_mono {f : ℚ → ℚ} (hf : Monotone f) :
    ∀ {l : List ℚ}, l ≠ [] → listMax (l.map f) = f (listMax l) := by
  intro l
  induction l with
  | nil => intro h; exact absurd rfl h
  | cons b t ih =>
    intro _
    cases t with
    | nil => rfl
    | cons c t2 =>
      have h1 : listMax (List.map f (b :: c :: t2)) =
          max (f b) (listMax (List.map f (c :: t2))) := rfl
      have h2 : listMax (b :: c :: t2) = max b (listMax (c :: t2)) := rfl
      rw [h1, ih (by simp), h2, hf.map_max]

theorem gvals_map (f : ℚ → ℚ) (m : List (List ℚ)) :
    gvals (m.map (fun row => row.map f)) = (gvals m).map f := by
  induction m with
  | nil => rfl
  | cons r t ih =>
    simp only [gvals, List.map_cons, List.flatten_cons, List.map_append] at ih ⊢
    rw [ih]

/-! ### C6 -/

/-- C6: on a non-degenerate map (min distinct from max) the
normalization of main.py line 76 produces no NaN, all its values lie
in the interval from 0 to 1, and it is idempotent: normalizing the
normalized values again returns them unchanged (their minimum is 0 and
their maximum 1, so the rescale is the identity). -/
theorem C6_normalize_idempotent (m : List (List ℚ))
    (hmn : gmin m ≠ gmax m) :
    normalize_depth m = (normGrid m).map (fun row => row.map some) ∧
      (∀ v ∈ gvals (normGrid m), 0 ≤ v ∧ v ≤ 1) ∧
      normalize_depth (normGrid m) =
        (normGrid m).map (fun row => row.map some) := by
  have hne : gvals m ≠ [] := by
    intro h
    exact hmn (by simp [gmin, gmax, h, listMin, listMax])
  have hlt : gmin m < gmax m :=
    lt_of_le_of_ne (listMin_le_listMax hne) hmn
  have hd : 0 < gmax m - gmin m := sub_pos.mpr hlt
  have hd0 : gmax m - gmin m ≠ 0 := ne_of_gt hd
  have hnv : ∀ v, normVal (gmin m) (gmax m) v =
      some ((v - gmin m) / (gmax m - gmin m)) := fun v => if_neg hd0
  have hfmono : Monotone (fun v => (v - gmin m) / (gmax m - gmin m)) := by
    intro a b hab
    exact (div_le_div_iff_of_pos_right hd).mpr (sub_le_sub_right hab _)
  have hvals : gvals (normGrid m) =
      (gvals m).map (fun v => (v - gmin m) / (gmax m - gmin m)) :=
    gvals_map _ m
  have hgmin : gmin (normGrid m) = 0 := by
    rw [gmin, hvals, listMin_map_mono hfmono hne]
    rw [show listMin (gvals m) = gmin m from rfl, sub_self, zero_div]
  have hgmax : gmax (normGrid m) = 1 := by
    rw [gmax, hvals, listMax_map_mono hfmono hne]
    rw [show listMax (gvals m) = gmax m from rfl]
    exact div_self hd0
  refine ⟨?_, ?_, ?_⟩
  · simp only [normalize_depth, normGrid, List.map_map]
    simp [Function.comp, hnv]
  · intro v hv
    rw [hvals] at hv
    obtain ⟨u, hu, rfl⟩ := List.mem_map.mp hv
    constructor
    · exact div_nonneg (sub_nonneg.mpr (listMin_le hu)) (le_of_lt hd)
    · exact (div_le_one hd).mpr (sub_le_sub_right (le_listMax hu) _)
  · simp only [normalize_depth, hgmin, hgmax]
    norm_num [normVal]

/-- Witness for C6 at the 1x2 map with entries 0 and 2. -/
theorem C6_witness :
    normalize_depth [[0, 2]] =
        (normGrid [[0, 2]]).map (fun row => row.map some) ∧
      (∀ v ∈ gvals (normGrid [[0, 2]]), 0 ≤ v ∧ v ≤ 1) ∧
      normalize_depth (normGrid [[0, 2]]) =
        (normGrid [[0, 2]]).map (fun row => row.map some) :=
  C6_normalize_idempotent [[0, 2]]
    (by norm_num [gmin, gmax, gvals, listMin, listMax])

theorem gridGet_zero {g : List (List ℚ)}
    (h : ∀ row ∈ g, ∀ v ∈ row, v = 0) (y x : ℕ) : gridGet g y x = 0 := by
  unfold gridGet
  by_cases hy : y < g.length
  · have hrow : g.getD y [] ∈ g := by
      rw [List.getD_eq_getElem _ _ hy]
      exact List.getElem_mem hy
    by_cases hx : x < (g.getD y []).length
    · have hv : (g.getD y []).getD x 0 ∈ g.getD y [] := by
        rw [List.getD_eq_getElem _ _ hx]
        exact List.getElem_mem hx
      exact h _ hrow _ hv
    · rw [List.getD_eq_default _ _ (le_of_not_lt hx)]
  · rw [List.getD_eq_default _ _ (le_of_not_lt hy)]
    rfl

theorem convAt_zero {g : List (List ℚ)} (k : List (List ℚ))
    (r hh ww y x : ℕ) (h : ∀ y2 x2, gridGet g y2 x2 = 0) :
    convAt k r g hh ww y x = 0 := by
  unfold convAt
  apply List.sum_eq_zero
  intro s hs
  obtain ⟨dy, _, rfl⟩ := List.mem_map.mp hs
  apply List.sum_eq_zero
  intro t ht
  obtain ⟨dx, _, rfl⟩ := List.mem_map.mp ht
  rw [h, mul_zero]

theorem gaussian_blur_q_zero {g : List (List ℚ)} (k : List (List ℚ))
    (r : ℕ) (h : ∀ y x, gridGet g y x = 0) :
    ∀ row ∈ gaussian_blur_q k r g, ∀ v ∈ row, v = 0 := by
  intro row hrow v hv
  obtain ⟨y, _, rfl⟩ := List.mem_map.mp hrow
  obtain ⟨x, _, rfl⟩ := List.mem_map.mp hv
  exact convAt_zero k r _ _ y x h

/-! ### C2 -/

/-- C2 counterexample: the claim says a uniform depth map yields an
all-zero blur mask for every focus_plane and every positive
focus_strength, but on the uniform map with value 0, focus plane 1 and
focus_range 0.1 (focus_strength 1), every distance is 1, so
max_distance is 1 and the normalized intensity is 1 everywhere; no
pixel lies in the band, and smoothing the all-one grid with a
normalized nonnegative kernel returns the all-one mask, not the
all-zero one. -/
theorem C2_counterexample :
    create_blur_mask [[1/16, 1/8, 1/16], [1/8, 1/4, 1/8], [1/16, 1/8, 1/16]]
        1 [[0]] 1 (1/10) = [[1]] ∧
      kSum [[1/16, 1/8, 1/16], [1/8, 1/4, 1/8], [1/16, 1/8, 1/16]] = 1 ∧
      (∀ row ∈ [[(1:ℚ)/16, 1/8, 1/16], [1/8, 1/4, 1/8], [1/16, 1/8, 1/16]],
        ∀ v ∈ row, 0 ≤ v) ∧
      ¬ create_blur_mask [[1/16, 1/8, 1/16], [1/8, 1/4, 1/8],
        [1/16, 1/8, 1/16]] 1 [[0]] 1 (1/10) = [[0]] := by
  have he : create_blur_mask [[1/16, 1/8, 1/16], [1/8, 1/4, 1/8],
      [1/16, 1/8, 1/16]] 1 [[0]] 1 (1/10) = [[1]] := by
    norm_num [create_blur_mask, gaussian_blur_q, convAt, blur_intensity,
      maskVal, maxDist, listMax, gvals, gridGet, reflect101, List.range_succ]
  refine ⟨he, by norm_num [kSum], by norm_num, by rw [he]; simp⟩

/-- C2 amended: a uniform depth map yields an all-zero blur mask only
when the focus plane lies within focus_range of the uniform value
(which is what happens when the focus plane is estimated from the map
itself); then every pre-smoothing intensity is clamped to 0 by the
band test and smoothing preserves the zero grid, for any kernel. -/
theorem C2_uniform_in_band_zero_mask (k : List (List ℚ)) (r : ℕ)
    (m : List (List ℚ)) (c fp fs : ℚ)
    (huni : ∀ row ∈ m, ∀ v ∈ row, v = c) (hfs : 0 < fs)
    (hband : |c - fp| ≤ 1/10/fs) :
    ∀ row ∈ create_blur_mask k r m fp (1/10/fs), ∀ v ∈ row, v = 0 := by
  have hz : ∀ row ∈ blur_intensity m fp (1/10/fs), ∀ v ∈ row, v = 0 := by
    intro row hrow v hv
    obtain ⟨row0, hrow0, rfl⟩ := List.mem_map.mp hrow
    obtain ⟨u, hu, rfl⟩ := List.mem_map.mp hv
    rw [huni row0 hrow0 u hu]
    exact if_pos hband
  exact gaussian_blur_q_zero k r (gridGet_zero hz)

/-- Witness for C2 amended: uniform 1x1 map with value 1/2, focus
plane 1/2, focus_strength 1, trivial 1x1 kernel; the single mask entry
is 0. -/
theorem C2_witness :
    gridGet (create_blur_mask [[1]] 0 [[1/2]] (1/2) (1/10/1)) 0 0 = 0 :=
  gridGet_zero
    (C2_uniform_in_band_zero_mask [[1]] 0 [[1/2]] (1/2) (1/2) 1
      (by norm_num) (by norm_num) (by norm_num)) 0 0

theorem reflect101_lt {n : ℕ} (hn : 0 < n) (i : ℤ) : reflect101 n i < n := by
  simp only [reflect101]
  split
  · exact hn
  · next h1 =>
    have hp0 : 0 ≤ i.emod (2 * ((n : ℤ) - 1)) :=
      Int.emod_nonneg i (by omega)
    have hplt : i.emod (2 * ((n : ℤ) - 1)) < 2 * ((n : ℤ) - 1) :=
      Int.emod_lt_of_pos i (by omega)
    split
    · next hc => omega
    · next hc => omega

theorem gridGet_mem_gvals {g : List (List ℚ)} {hh ww y x : ℕ}
    (hg : Rect g hh ww) (hy : y < hh) (hx : x < ww) :
    gridGet g y x ∈ gvals g := by
  obtain ⟨hlen, hrows⟩ := hg
  subst hlen
  unfold gridGet gvals
  have hrow : g.getD y [] ∈ g := by
    rw [List.getD_eq_getElem _ _ hy]
    exact List.getElem_mem hy
  have hxlen : x < (g.getD y []).length := by rw [hrows _ hrow]; exact hx
  have hv : (g.getD y []).getD x 0 ∈ g.getD y [] := by
    rw [List.getD_eq_getElem _ _ hxlen]
    exact List.getElem_mem hxlen
  exact List.mem_flatten.mpr ⟨_, hrow, hv⟩

theorem sum_range_getD (l : List ℚ) :
    ((List.range l.length).map (fun i => l.getD i 0)).sum = l.sum := by
  induction l with
  | nil => rfl
  | cons a t ih =>
    rw [List.length_cons, List.range_succ_eq_map]
    simp only [List.map_cons, List.map_map, List.sum_cons,
      List.getD_cons_zero]
    rw [show ((fun i => (a :: t).getD i 0) ∘ Nat.succ) =
      (fun i => t.getD i 0) from rfl, ih]

theorem sum_range_getD_rows (k : List (List ℚ)) :
    ((List.range k.length).map (fun i => (k.getD i []).sum)).sum =
      (k.map List.sum).sum := by
  induction k with
  | nil => rfl
  | cons a t ih =>
    rw [List.length_cons, List.range_succ_eq_map]
    simp only [List.map_cons, List.map_map, List.sum_cons,
      List.getD_cons_zero]
    rw [show ((fun i => ((a :: t).getD i []).sum) ∘ Nat.succ) =
      (fun i => (t.getD i []).sum) from rfl, ih]

theorem convAt_bounds {k g : List (List ℚ)} {r hh ww : ℕ}
    (hkr : Rect k (2 * r + 1) (2 * r + 1))
    (hknn : ∀ v ∈ gvals k, 0 ≤ v) (hks : kSum k = 1)
    (hg : Rect g hh ww) (hgv : ∀ v ∈ gvals g, 0 ≤ v ∧ v ≤ 1)
    (hh0 : 0 < hh) (hw0 : 0 < ww) (y x : ℕ) :
    0 ≤ convAt k r g hh ww y x ∧ convAt k r g hh ww y x ≤ 1 := by
  have hknn2 : ∀ dy dx, dy < 2 * r + 1 → dx < 2 * r + 1 →
      0 ≤ gridGet k dy dx :=
    fun dy dx h1 h2 => hknn _ (gridGet_mem_gvals hkr h1 h2)
  have hgb : ∀ y2 x2, y2 < hh → x2 < ww →
      0 ≤ gridGet g y2 x2 ∧ gridGet g y2 x2 ≤ 1 :=
    fun y2 x2 h1 h2 => hgv _ (gridGet_mem_gvals hg h1 h2)
  constructor
  · apply List.sum_nonneg
    intro s hs
    obtain ⟨dy, hdy, rfl⟩ := List.mem_map.mp hs
    apply List.sum_nonneg
    intro t ht
    obtain ⟨dx, hdx, rfl⟩ := List.mem_map.mp ht
    exact mul_nonneg
      (hknn2 _ _ (List.mem_range.mp hdy) (List.mem_range.mp hdx))
      (hgb _ _ (reflect101_lt hh0 _) (reflect101_lt hw0 _)).1
  · have step1 : ∀ dy ∈ List.range (2 * r + 1),
        ((List.range (2 * r + 1)).map (fun dx =>
          gridGet k dy dx *
            gridGet g (reflect101 hh ((y : ℤ) + dy - r))
                      (reflect101 ww ((x : ℤ) + dx - r)))).sum ≤
          (k.getD dy []).sum := by
      intro dy hdy
      have hdy' : dy < k.length := by rw [hkr.1]; exact List.mem_range.mp hdy
      have hrowm : k.getD dy [] ∈ k := by
        rw [List.getD_eq_getElem _ _ hdy']
        exact List.getElem_mem hdy'
      have hrowlen : (k.getD dy []).length = 2 * r + 1 := hkr.2 _ hrowm
      have h1 : ((List.range (2 * r + 1)).map (fun dx =>
          gridGet k dy dx *
            gridGet g (reflect101 hh ((y : ℤ) + dy - r))
                      (reflect101 ww ((x : ℤ) + dx - r)))).sum ≤
          ((List.range (2 * r + 1)).map (fun dx => gridGet k dy dx)).sum := by
        apply List.sum_le_sum
        intro dx hdx
        exact mul_le_of_le_one_right
          (hknn2 _ _ (List.mem_range.mp hdy) (List.mem_range.mp hdx))
          (hgb _ _ (reflect101_lt hh0 _) (reflect101_lt hw0 _)).2
      have h2 : ((List.range (2 * r + 1)).map (fun dx =>
          gridGet k dy dx)).sum = (k.getD dy []).sum := by
        rw [show (fun dx => gridGet k dy dx) =
          (fun dx => (k.getD dy []).getD dx 0) from rfl, ← hrowlen]
        exact sum_range_getD _
      rw [← h2]
      exact h1
    calc convAt k r g hh ww y x ≤
        ((List.range (2 * r + 1)).map (fun dy => (k.getD dy []).sum)).sum :=
          List.sum_le_sum step1
      _ = 1 := by
          rw [← hkr.1, sum_range_getD_rows]
          exact hks

theorem gaussian_blur_q_bounds {k g : List (List ℚ)} {r hh ww : ℕ}
    (hkr : Rect k (2 * r + 1) (2 * r + 1))
    (hknn : ∀ v ∈ gvals k, 0 ≤ v) (hks : kSum k = 1)
    (hg : Rect g hh ww) (hgv : ∀ v ∈ gvals g, 0 ≤ v ∧ v ≤ 1) :
    ∀ v ∈ gvals (gaussian_blur_q k r g), 0 ≤ v ∧ v ≤ 1 := by
  intro v hv
  obtain ⟨row, hrow, hvrow⟩ := List.mem_flatten.mp hv
  obtain ⟨y, hy, rfl⟩ := List.mem_map.mp hrow
  obtain ⟨x, hx, rfl⟩ := List.mem_map.mp hvrow
  have hy' : y < g.length := List.mem_range.mp hy
  have hx' : x < (g.getD 0 []).length := List.mem_range.mp hx
  have hh0 : 0 < g.length := lt_of_le_of_lt (Nat.zero_le _) hy'
  have hw0 : 0 < (g.getD 0 []).length := lt_of_le_of_lt (Nat.zero_le _) hx'
  have hrect : Rect g g.length ((g.getD 0 []).length) := by
    refine ⟨rfl, fun row2 hrow2 => ?_⟩
    have hrow0 : g.getD 0 [] ∈ g := by
      rw [List.getD_eq_getElem _ _ hh0]
      exact List.getElem_mem hh0
    rw [hg.2 _ hrow2, hg.2 _ hrow0]
  exact convAt_bounds hkr hknn hks hrect hgv hh0 hw0 y x

theorem Rect_map (f : ℚ → ℚ) {m : List (List ℚ)} {hh ww : ℕ}
    (hm : Rect m hh ww) : Rect (m.map (fun row => row.map f)) hh ww := by
  refine ⟨by simp [hm.1], ?_⟩
  intro row hrow
  obtain ⟨row0, hrow0, rfl⟩ := List.mem_map.mp hrow
  simp [hm.2 _ hrow0]

theorem blur_intensity_bounds (m : List (List ℚ)) (fp fr : ℚ) :
    ∀ v ∈ gvals (blur_intensity m fp fr), 0 ≤ v ∧ v ≤ 1 := by
  intro v hv
  obtain ⟨row, hrow, hvrow⟩ := List.mem_flatten.mp hv
  obtain ⟨row0, hrow0, rfl⟩ := List.mem_map.mp hrow
  obtain ⟨u, hu, rfl⟩ := List.mem_map.mp hvrow
  have hum : u ∈ gvals m := List.mem_flatten.mpr ⟨_, hrow0, hu⟩
  have hdle : |u - fp| ≤ maxDist m fp :=
    le_listMax (List.mem_map_of_mem _ hum)
  unfold maskVal
  split
  · exact ⟨le_refl 0, zero_le_one⟩
  · split
    · next hmd =>
      exact ⟨div_nonneg (abs_nonneg _) (le_of_lt hmd),
        (div_le_one hmd).mpr hdle⟩
    · exact ⟨le_refl 0, zero_le_one⟩

theorem gridGet_map (f : ℚ → ℚ) {m : List (List ℚ)} {hh ww y x : ℕ}
    (hm : Rect m hh ww) (hy : y < hh) (hx : x < ww) :
    gridGet (m.map (fun row => row.map f)) y x = f (gridGet m y x) := by
  obtain ⟨hlen, hrows⟩ := hm
  subst hlen
  unfold gridGet
  have hy2 : y < (m.map (fun row => row.map f)).length := by
    rw [List.length_map]; exact hy
  rw [List.getD_eq_getElem _ _ hy2, List.getD_eq_getElem _ _ hy,
    List.getElem_map]
  have hrowm : m[y] ∈ m := List.getElem_mem hy
  have hx2 : x < (m[y].map f).length := by
    rw [List.length_map, hrows _ hrowm]; exact hx
  have hx3 : x < m[y].length := by rw [hrows _ hrowm]; exact hx
  rw [List.getD_eq_getElem _ _ hx2, List.getD_eq_getElem _ _ hx3,
    List.getElem_map]

/-! ### C5 -/

/-- C5 counterexample: post-smoothing monotonicity fails.  On the
1x4 depth map with values 9/10, 0, 8/10, 8/10, focus plane 0 and
focus_range 1/10, smoothed with the normalized nonnegative kernel
whose middle row is 1/4, 1/2, 1/4 (zero elsewhere), the pixel at
column 0 is farther from the focus plane than the pixel at column 2
(9/10 against 8/10, both outside the band), yet its final mask value
1/2 is strictly smaller than the 2/3 at column 2, because smoothing
mixes the in-band neighbours into it. -/
theorem C5_counterexample :
    kSum [[0, 0, 0], [1/4, 1/2, 1/4], [0, 0, 0]] = 1 ∧
      (∀ v ∈ gvals [[0, 0, 0], [(1:ℚ)/4, 1/2, 1/4], [0, 0, 0]], 0 ≤ v) ∧
      (1/10 : ℚ) < |gridGet [[9/10, 0, 8/10, 8/10]] 0 2 - 0| ∧
      (1/10 : ℚ) < |gridGet [[9/10, 0, 8/10, 8/10]] 0 0 - 0| ∧
      |gridGet [[9/10, 0, 8/10, 8/10]] 0 2 - 0| ≤
        |gridGet [[9/10, 0, 8/10, 8/10]] 0 0 - 0| ∧
      gridGet (create_blur_mask [[0, 0, 0], [1/4, 1/2, 1/4], [0, 0, 0]] 1
          [[9/10, 0, 8/10, 8/10]] 0 (1/10)) 0 0 <
        gridGet (create_blur_mask [[0, 0, 0], [1/4, 1/2, 1/4], [0, 0, 0]] 1
          [[9/10, 0, 8/10, 8/10]] 0 (1/10)) 0 2 := by
  have he : create_blur_mask [[0, 0, 0], [1/4, 1/2, 1/4], [0, 0, 0]] 1
      [[9/10, 0, 8/10, 8/10]] 0 (1/10) = [[1/2, 17/36, 2/3, 8/9]] := by
    norm_num [create_blur_mask, gaussian_blur_q, convAt, blur_intensity,
      maskVal, maxDist, listMax, gvals, gridGet, reflect101,
      List.range_succ, Int.toNat_ofNat, abs_of_nonneg, abs_of_nonpos,
      show Int.toNat 2 = 2 from rfl, show Int.toNat 3 = 3 from rfl]
  refine ⟨by norm_num [kSum], by norm_num [gvals],
    by norm_num [gridGet, abs_of_nonneg],
    by norm_num [gridGet, abs_of_nonneg],
    by norm_num [gridGet, abs_of_nonneg], ?_⟩
  rw [he]
  norm_num [gridGet]

/-- C5 amended: every entry of the final (post-smoothing) blur mask
lies in the interval from 0 to 1 for any nonnegative kernel of total
weight 1, and the weak off-band monotonicity in the distance to the
focus plane holds for the PRE-smoothing intensity grid of
_create_blur_mask (lines 108-122), not for the smoothed mask. -/
theorem C5_amended (k m : List (List ℚ)) (r hh ww : ℕ) (fp fr : ℚ)
    (hkr : Rect k (2 * r + 1) (2 * r + 1))
    (hknn : ∀ v ∈ gvals k, 0 ≤ v) (hks : kSum k = 1)
    (hm : Rect m hh ww) :
    (∀ v ∈ gvals (create_blur_mask k r m fp fr), 0 ≤ v ∧ v ≤ 1) ∧
      (∀ y1 x1 y2 x2, y1 < hh → x1 < ww → y2 < hh → x2 < ww →
        fr < |gridGet m y1 x1 - fp| → fr < |gridGet m y2 x2 - fp| →
        |gridGet m y1 x1 - fp| ≤ |gridGet m y2 x2 - fp| →
        gridGet (blur_intensity m fp fr) y1 x1 ≤
          gridGet (blur_intensity m fp fr) y2 x2) := by
  constructor
  · exact gaussian_blur_q_bounds hkr hknn hks
      (Rect_map (maskVal (maxDist m fp) fp fr) hm)
      (blur_intensity_bounds m fp fr)
  · intro y1 x1 y2 x2 hy1 hx1 hy2 hx2 hb1 hb2 hle
    rw [show blur_intensity m fp fr =
      m.map (fun row => row.map (maskVal (maxDist m fp) fp fr)) from rfl,
      gridGet_map _ hm hy1 hx1, gridGet_map _ hm hy2 hx2]
    unfold maskVal
    rw [if_neg (not_le.mpr hb1), if_neg (not_le.mpr hb2)]
    by_cases hmd : 0 < maxDist m fp
    · rw [if_pos hmd, if_pos hmd]
      exact (div_le_div_iff_of_pos_right hmd).mpr hle
    · rw [if_neg hmd, if_neg hmd]

/-- Witness for C5 amended with the trivial 1x1 kernel and the 1x2
depth map with values 0 and 1. -/
theorem C5_witness :
    (∀ v ∈ gvals (create_blur_mask [[1]] 0 [[0, 1]] 0 (1/10)),
        0 ≤ v ∧ v ≤ 1) ∧
      (∀ y1 x1 y2 x2, y1 < 1 → x1 < 2 → y2 < 1 → x2 < 2 →
        (1/10 : ℚ) < |gridGet [[0, 1]] y1 x1 - 0| →
        (1/10 : ℚ) < |gridGet [[0, 1]] y2 x2 - 0| →
        |gridGet [[0, 1]] y1 x1 - 0| ≤ |gridGet [[0, 1]] y2 x2 - 0| →
        gridGet (blur_intensity [[0, 1]] 0 (1/10)) y1 x1 ≤
          gridGet (blur_intensity [[0, 1]] 0 (1/10)) y2 x2) :=
  C5_amended [[1]] [[0, 1]] 0 1 2 0 (1/10) ⟨rfl, by simp⟩
    (by norm_num [gvals]) (by norm_num [kSum]) ⟨rfl, by simp⟩

theorem npToUint8_coe {c : ℕ} (hc : c ≤ 255) : npToUint8 (c : ℚ) = c := by
  unfold npToUint8 qtrunc
  rw [if_neg (not_lt.mpr (by positivity)), Int.floor_natCast]
  show ((c : ℤ) % 256).toNat = c
  rw [Int.emod_eq_of_lt (by positivity)
    (by exact_mod_cast Nat.lt_succ_of_le hc), Int.toNat_natCast]

theorem zipWith_eq_left {α β : Type} (f : α → β → α) :
    ∀ (xs : List α) (ys : List β), xs.length = ys.length →
      (∀ x ∈ xs, ∀ y ∈ ys, f x y = x) → List.zipWith f xs ys = xs := by
  intro xs
  induction xs with
  | nil => intro ys _ _; rfl
  | cons x xs ih =>
    intro ys hlen hpt
    cases ys with
    | nil => simp at hlen
    | cons y ys =>
      rw [List.zipWith_cons_cons,
        hpt x (List.mem_cons_self _ _) y (List.mem_cons_self _ _),
        ih ys (by simpa using hlen)
          (fun a ha b hb => hpt a (List.mem_cons_of_mem _ ha)
            b (List.mem_cons_of_mem _ hb))]

theorem zipWith_eq_right {α β : Type} (f : α → β → β) :
    ∀ (xs : List α) (ys : List β), xs.length = ys.length →
      (∀ x ∈ xs, ∀ y ∈ ys, f x y = y) → List.zipWith f xs ys = ys := by
  intro xs
  induction xs with
  | nil =>
    intro ys hlen _
    cases ys with
    | nil => rfl
    | cons y t => simp at hlen
  | cons x xs ih =>
    intro ys hlen hpt
    cases ys with
    | nil => simp at hlen
    | cons y ys =>
      rw [List.zipWith_cons_cons,
        hpt x (List.mem_cons_self _ _) y (List.mem_cons_self _ _),
        ih ys (by simpa using hlen)
          (fun a ha b hb => hpt a (List.mem_cons_of_mem _ ha)
            b (List.mem_cons_of_mem _ hb))]

theorem zipWith3_eq_left {α β γ : Type} (f : α → β → γ → α) :
    ∀ (as : List α) (bs : List β) (cs : List γ),
      as.length = bs.length → as.length = cs.length →
      (∀ a ∈ as, ∀ b ∈ bs, ∀ c ∈ cs, f a b c = a) →
      zipWith3 f as bs cs = as := by
  intro as
  induction as with
  | nil => intro bs cs _ _ _; cases bs <;> cases cs <;> rfl
  | cons a as ih =>
    intro bs cs hb hc hpt
    cases bs with
    | nil => simp at hb
    | cons b bs =>
      cases cs with
      | nil => simp at hc
      | cons c cs =>
        show f a b c :: zipWith3 f as bs cs = a :: as
        rw [hpt a (List.mem_cons_self _ _) b (List.mem_cons_self _ _)
            c (List.mem_cons_self _ _),
          ih bs cs (by simpa using hb) (by simpa using hc)
            (fun a2 ha b2 hbm c2 hcm => hpt a2 (List.mem_cons_of_mem _ ha)
              b2 (List.mem_cons_of_mem _ hbm) c2 (List.mem_cons_of_mem _ hcm))]

theorem zipWith3_eq_right {α β γ : Type} (f : α → β → γ → γ) :
    ∀ (as : List α) (bs : List β) (cs : List γ),
      as.length = bs.length → as.length = cs.length →
      (∀ a ∈ as, ∀ b ∈ bs, ∀ c ∈ cs, f a b c = c) →
      zipWith3 f as bs cs = cs := by
  intro as
  induction as with
  | nil =>
    intro bs cs _ hc _
    cases cs
    · cases bs <;> rfl
    · simp at hc
  | cons a as ih =>
    intro bs cs hb hc hpt
    cases bs with
    | nil => simp at hb
    | cons b bs =>
      cases cs with
      | nil => simp at hc
      | cons c cs =>
        show f a b c :: zipWith3 f as bs cs = c :: cs
        rw [hpt a (List.mem_cons_self _ _) b (List.mem_cons_self _ _)
            c (List.mem_cons_self _ _),
          ih bs cs (by simpa using hb) (by simpa using hc)
            (fun a2 ha b2 hbm c2 hcm => hpt a2 (List.mem_cons_of_mem _ ha)
              b2 (List.mem_cons_of_mem _ hbm) c2 (List.mem_cons_of_mem _ hcm))]

theorem imgBlurU8_length (k : List (List ℚ)) (r : ℕ)
    (img : List (List (List ℕ))) : (imgBlurU8 k r img).length = img.length := by
  simp [imgBlurU8]

theorem imgBlurU8_row_shape {k : List (List ℚ)} {r : ℕ}
    {img : List (List (List ℕ))} {row : List (List ℕ)}
    (hrow : row ∈ imgBlurU8 k r img) :
    row.length = (img.getD 0 []).length ∧
      ∀ px ∈ row, px.length = ((img.getD 0 []).getD 0 []).length ∧
        ∀ b ∈ px, b ≤ 255 := by
  obtain ⟨y, _, rfl⟩ := List.mem_map.mp hrow
  refine ⟨by simp, ?_⟩
  intro px hpx
  obtain ⟨x, _, rfl⟩ := List.mem_map.mp hpx
  refine ⟨by simp, ?_⟩
  intro b hb
  obtain ⟨c, _, rfl⟩ := List.mem_map.mp hb
  exact min_le_left _ _

/-! ### C3 -/

/-- C3: in the optimized compositor (main.py lines 158-173) an
all-zero mask reproduces the original image exactly, and an all-one
mask reproduces the heavily blurred rendition exactly: the blend
(1-mask)*original + mask*blurred collapses to one operand, whose
integer value survives the astype(np.uint8) cast unchanged (original
channels are at most 255 by hypothesis, blurred channels by
construction of the saturating uint8 filter). -/
theorem C3_mask_extremes (k : List (List ℚ)) (r : ℕ)
    (img : List (List (List ℕ))) (mask : List (List ℚ)) (hh ww nc : ℕ)
    (himg : RectI img hh ww nc) (hmask : Rect mask hh ww)
    (hch : ∀ row ∈ img, ∀ px ∈ row, ∀ c ∈ px, c ≤ 255) :
    ((∀ row ∈ mask, ∀ v ∈ row, v = 0) →
      apply_depth_blur_optimized k r img mask = img) ∧
    ((∀ row ∈ mask, ∀ v ∈ row, v = 1) →
      apply_depth_blur_optimized k r img mask = imgBlurU8 k r img) := by
  have hfirstrow : ∀ irow ∈ img, (img.getD 0 []).length = ww := by
    intro irow hirow
    have h0 : 0 < img.length := List.length_pos.mpr (List.ne_nil_of_mem hirow)
    have hmem : img.getD 0 [] ∈ img := by
      rw [List.getD_eq_getElem _ _ h0]
      exact List.getElem_mem h0
    exact (himg.2 _ hmem).1
  have hfirstpx : ∀ irow ∈ img, ∀ px ∈ irow,
      ((img.getD 0 []).getD 0 []).length = nc := by
    intro irow hirow px hpx
    have h0 : 0 < img.length := List.length_pos.mpr (List.ne_nil_of_mem hirow)
    have hrow0 : img.getD 0 [] ∈ img := by
      rw [List.getD_eq_getElem _ _ h0]
      exact List.getElem_mem h0
    have hww : 0 < (img.getD 0 []).length := by
      rw [(himg.2 _ hrow0).1, ← (himg.2 _ hirow).1]
      exact List.length_pos.mpr (List.ne_nil_of_mem hpx)
    have hpx0 : (img.getD 0 []).getD 0 [] ∈ img.getD 0 [] := by
      rw [List.getD_eq_getElem _ _ hww]
      exact List.getElem_mem hww
    exact (himg.2 _ hrow0).2 _ hpx0
  have hob : img.length = mask.length := by rw [himg.1, hmask.1]
  have hoc : img.length = (imgBlurU8 k r img).length :=
    (imgBlurU8_length k r img).symm
  constructor
  · intro hz
    simp only [apply_depth_blur_optimized]
    apply zipWith3_eq_left _ img mask (imgBlurU8 k r img) hob hoc
    intro irow hirow mrow hmrow brow hbrow
    apply zipWith3_eq_left _ irow mrow brow
    · rw [(himg.2 _ hirow).1, hmask.2 _ hmrow]
    · rw [(himg.2 _ hirow).1, (imgBlurU8_row_shape hbrow).1,
        hfirstrow irow hirow]
    · intro px hpx m hm bpx hbpx
      have hm0 : m = 0 := hz _ hmrow _ hm
      subst hm0
      apply zipWith_eq_left _ px bpx
      · rw [(himg.2 _ hirow).2 _ hpx,
          ((imgBlurU8_row_shape hbrow).2 _ hbpx).1, hfirstpx irow hirow px hpx]
      · intro cv hcv bv hbv
        show npToUint8 ((1 - 0) * (cv : ℚ) + 0 * (bv : ℚ)) = cv
        rw [show ((1 : ℚ) - 0) * (cv : ℚ) + 0 * (bv : ℚ) = (cv : ℚ) by ring,
          npToUint8_coe (hch _ hirow _ hpx _ hcv)]
  · intro ho
    simp only [apply_depth_blur_optimized]
    apply zipWith3_eq_right _ img mask (imgBlurU8 k r img) hob hoc
    intro irow hirow mrow hmrow brow hbrow
    apply zipWith3_eq_right _ irow mrow brow
    · rw [(himg.2 _ hirow).1, hmask.2 _ hmrow]
    · rw [(himg.2 _ hirow).1, (imgBlurU8_row_shape hbrow).1,
        hfirstrow irow hirow]
    · intro px hpx m hm bpx hbpx
      have hm1 : m = 1 := ho _ hmrow _ hm
      subst hm1
      apply zipWith_eq_right _ px bpx
      · rw [(himg.2 _ hirow).2 _ hpx,
          ((imgBlurU8_row_shape hbrow).2 _ hbpx).1, hfirstpx irow hirow px hpx]
      · intro cv hcv bv hbv
        show npToUint8 ((1 - 1) * (cv : ℚ) + 1 * (bv : ℚ)) = bv
        rw [show ((1 : ℚ) - 1) * (cv : ℚ) + 1 * (bv : ℚ) = (bv : ℚ) by ring,
          npToUint8_coe (((imgBlurU8_row_shape hbrow).2 _ hbpx).2 _ hbv)]

/-- Witness for C3 with the trivial 1x1 kernel, a 1x2 single-channel
image and the all-zero and all-one masks. -/
theorem C3_witness :
    apply_depth_blur_optimized [[1]] 0 [[[5], [200]]] [[0, 0]] =
        [[[5], [200]]] ∧
      apply_depth_blur_optimized [[1]] 0 [[[5], [200]]] [[1, 1]] =
        imgBlurU8 [[1]] 0 [[[5], [200]]] := by
  constructor
  · exact (C3_mask_extremes [[1]] 0 [[[5], [200]]] [[0, 0]] 1 2 1
      ⟨rfl, by simp⟩ ⟨rfl, by simp⟩ (by simp)).1 (by norm_num)
  · exact (C3_mask_extremes [[1]] 0 [[[5], [200]]] [[1, 1]] 1 2 1
      ⟨rfl, by simp⟩ ⟨rfl, by simp⟩ (by simp)).2 (by norm_num)

theorem zipWith_getD {α β γ : Type} (f : α → β → γ) (da : α) (db : β)
    (dg : γ) : ∀ (xs : List α) (ys : List β) (i : ℕ),
      i < xs.length → i < ys.length →
      (List.zipWith f xs ys).getD i dg = f (xs.getD i da) (ys.getD i db) := by
  intro xs
  induction xs with
  | nil => intro ys i hi _; simp at hi
  | cons x xs ih =>
    intro ys i hi hj
    cases ys with
    | nil => simp at hj
    | cons y ys =>
      cases i with
      | zero => rfl
      | succ n =>
        rw [List.zipWith_cons_cons, List.getD_cons_succ, List.getD_cons_succ,
          List.getD_cons_succ]
        exact ih ys n (by simpa using hi) (by simpa using hj)

theorem zipWith3_getD {α β γ δ : Type} (f : α → β → γ → δ) (da : α)
    (db : β) (dc : γ) (dd : δ) : ∀ (as : List α) (bs : List β) (cs : List γ)
      (i : ℕ), i < as.length → i < bs.length → i < cs.length →
      (zipWith3 f as bs cs).getD i dd =
        f (as.getD i da) (bs.getD i db) (cs.getD i dc) := by
  intro as
  induction as with
  | nil => intro bs cs i hi _ _; simp at hi
  | cons a as ih =>
    intro bs cs i hi hj hl
    cases bs with
    | nil => simp at hj
    | cons b bs =>
      cases cs with
      | nil => simp at hl
      | cons c cs =>
        cases i with
        | zero => rfl
        | succ n =>
          show (zipWith3 f as bs cs).getD n dd = _
          exact ih bs cs n (by simpa using hi) (by simpa using hj)
            (by simpa using hl)

theorem getD_le255 {l : List ℕ} (h : ∀ v ∈ l, v ≤ 255) (i : ℕ) :
    l.getD i 0 ≤ 255 := by
  by_cases hi : i < l.length
  · rw [List.getD_eq_getElem _ _ hi]
    exact h _ (List.getElem_mem hi)
  · rw [List.getD_eq_default _ _ (le_of_not_lt hi)]
    norm_num

theorem imgBlurU8_chGet_le (k : List (List ℚ)) (r : ℕ)
    (img : List (List (List ℕ))) (y x c : ℕ) :
    chGet (imgBlurU8 k r img) y x c ≤ 255 := by
  unfold chGet pxGet
  apply getD_le255
  intro v hv
  by_cases hy : y < (imgBlurU8 k r img).length
  · have hrow : (imgBlurU8 k r img).getD y [] ∈ imgBlurU8 k r img := by
      rw [List.getD_eq_getElem _ _ hy]
      exact List.getElem_mem hy
    have hshape := imgBlurU8_row_shape hrow
    by_cases hx : x < ((imgBlurU8 k r img).getD y []).length
    · have hpx : ((imgBlurU8 k r img).getD y []).getD x [] ∈
          (imgBlurU8 k r img).getD y [] := by
        rw [List.getD_eq_getElem _ _ hx]
        exact List.getElem_mem hx
      exact ((hshape.2 _ hpx).2) _ hv
    · rw [List.getD_eq_default _ _ (le_of_not_lt hx)] at hv
      cases hv
  · rw [List.getD_eq_default _ _ (le_of_not_lt hy)] at hv
    cases hv

theorem npToUint8_eq_floor {q : ℚ} (h0 : 0 ≤ q) (h255 : q ≤ 255) :
    npToUint8 q = Int.toNat ⌊q⌋ := by
  unfold npToUint8 qtrunc
  rw [if_neg (not_lt.mpr h0)]
  congr 1
  show ⌊q⌋ % 256 = ⌊q⌋
  have h1 : ⌊q⌋ ≤ ⌊(255 : ℚ)⌋ := Int.floor_le_floor h255
  have h2 : ⌊(255 : ℚ)⌋ = 255 := by norm_num
  have h3 : 0 ≤ ⌊q⌋ := Int.floor_nonneg.mpr h0
  omega

theorem apply_opt_chGet (k : List (List ℚ)) (r : ℕ)
    (img : List (List (List ℕ))) (mask : List (List ℚ)) (hh ww nc y x c : ℕ)
    (himg : RectI img hh ww nc) (hmask : Rect mask hh ww)
    (hy : y < hh) (hx : x < ww) (hc : c < nc) :
    chGet (apply_depth_blur_optimized k r img mask) y x c =
      npToUint8 ((1 - gridGet mask y x) * (chGet img y x c : ℚ) +
        gridGet mask y x * (chGet (imgBlurU8 k r img) y x c : ℚ)) := by
  have hyi : y < img.length := by rw [himg.1]; exact hy
  have hym : y < mask.length := by rw [hmask.1]; exact hy
  have hyb : y < (imgBlurU8 k r img).length := by
    rw [imgBlurU8_length]; exact hyi
  have hirow : img.getD y [] ∈ img := by
    rw [List.getD_eq_getElem _ _ hyi]; exact List.getElem_mem hyi
  have hmrow : mask.getD y [] ∈ mask := by
    rw [List.getD_eq_getElem _ _ hym]; exact List.getElem_mem hym
  have hbrow : (imgBlurU8 k r img).getD y [] ∈ imgBlurU8 k r img := by
    rw [List.getD_eq_getElem _ _ hyb]; exact List.getElem_mem hyb
  have hbshape := imgBlurU8_row_shape hbrow
  have h0 : 0 < img.length := lt_of_le_of_lt (Nat.zero_le y) hyi
  have hrow0 : img.getD 0 [] ∈ img := by
    rw [List.getD_eq_getElem _ _ h0]; exact List.getElem_mem h0
  have hw0 : (img.getD 0 []).length = ww := (himg.2 _ hrow0).1
  have hxi : x < (img.getD y []).length := by
    rw [(himg.2 _ hirow).1]; exact hx
  have hxm : x < (mask.getD y []).length := by
    rw [hmask.2 _ hmrow]; exact hx
  have hxb : x < ((imgBlurU8 k r img).getD y []).length := by
    rw [hbshape.1, hw0]; exact hx
  have hpx : (img.getD y []).getD x [] ∈ img.getD y [] := by
    rw [List.getD_eq_getElem _ _ hxi]; exact List.getElem_mem hxi
  have hbpx : ((imgBlurU8 k r img).getD y []).getD x [] ∈
      (imgBlurU8 k r img).getD y [] := by
    rw [List.getD_eq_getElem _ _ hxb]; exact List.getElem_mem hxb
  have hww0 : 0 < (img.getD 0 []).length := by
    rw [hw0]; exact lt_of_le_of_lt (Nat.zero_le x) hx
  have hpx00 : (img.getD 0 []).getD 0 [] ∈ img.getD 0 [] := by
    rw [List.getD_eq_getElem _ _ hww0]; exact List.getElem_mem hww0
  have hnc0 : ((img.getD 0 []).getD 0 []).length = nc :=
    (himg.2 _ hrow0).2 _ hpx00
  have hci : c < ((img.getD y []).getD x []).length := by
    rw [(himg.2 _ hirow).2 _ hpx]; exact hc
  have hcb : c < (((imgBlurU8 k r img).getD y []).getD x []).length := by
    rw [(hbshape.2 _ hbpx).1, hnc0]; exact hc
  simp only [apply_depth_blur_optimized, chGet, pxGet, gridGet]
  rw [zipWith3_getD _ [] [] [] [] img mask (imgBlurU8 k r img) y hyi hym hyb,
    zipWith3_getD _ [] 0 [] [] _ _ _ x hxi hxm hxb,
    zipWith_getD _ 0 0 0 _ _ c hci hcb]

/-! ### C9 -/

set_option maxHeartbeats 1600000 in
/-- C9 counterexample: the blend is not rounded to nearest.  With the
normalized kernel whose middle row is 1/4, 1/2, 1/4, the single-channel
image with pixels 0 and 255 blurs to 128 at both pixels; with mask
value 9/10 the float blend at pixel 1 is 0.1*255 + 0.9*128 = 140.7,
which astype(np.uint8) truncates to 140, while the rounded-and-clamped
value the spec describes is 141. -/
theorem C9_counterexample :
    chGet (apply_depth_blur_optimized
        [[0, 0, 0], [1/4, 1/2, 1/4], [0, 0, 0]] 1
        [[[0], [255]]] [[9/10, 9/10]]) 0 1 0 = 140 ∧
      roundClamp255 ((1 - gridGet [[9/10, 9/10]] 0 1) *
          (chGet [[[0], [255]]] 0 1 0 : ℚ) +
        gridGet [[9/10, 9/10]] 0 1 *
          (chGet (imgBlurU8 [[0, 0, 0], [1/4, 1/2, 1/4], [0, 0, 0]] 1
            [[[0], [255]]]) 0 1 0 : ℚ)) = 141 ∧
      ¬ chGet (apply_depth_blur_optimized
          [[0, 0, 0], [1/4, 1/2, 1/4], [0, 0, 0]] 1
          [[[0], [255]]] [[9/10, 9/10]]) 0 1 0 =
        roundClamp255 ((1 - gridGet [[9/10, 9/10]] 0 1) *
            (chGet [[[0], [255]]] 0 1 0 : ℚ) +
          gridGet [[9/10, 9/10]] 0 1 *
            (chGet (imgBlurU8 [[0, 0, 0], [1/4, 1/2, 1/4], [0, 0, 0]] 1
              [[[0], [255]]]) 0 1 0 : ℚ)) := by
  have hblur : imgBlurU8 [[0, 0, 0], [1/4, 1/2, 1/4], [0, 0, 0]] 1
      [[[0], [255]]] = [[[128], [128]]] := by
    norm_num [imgBlurU8, imgConvAt, cvRoundU8, chGet, pxGet, gridGet,
      reflect101, List.range_succ,
      show Int.toNat 128 = 128 from rfl]
  have h1 : chGet (apply_depth_blur_optimized
      [[0, 0, 0], [1/4, 1/2, 1/4], [0, 0, 0]] 1
      [[[0], [255]]] [[9/10, 9/10]]) 0 1 0 = 140 := by
    simp only [apply_depth_blur_optimized]
    rw [hblur]
    norm_num [zipWith3, chGet, pxGet, gridGet, npToUint8, qtrunc,
      show Int.toNat 140 = 140 from rfl,
      show ((140 : ℤ) % 256) = 140 from rfl]
  have h2 : roundClamp255 ((1 - gridGet [[9/10, 9/10]] 0 1) *
      (chGet [[[0], [255]]] 0 1 0 : ℚ) +
    gridGet [[9/10, 9/10]] 0 1 *
      (chGet (imgBlurU8 [[0, 0, 0], [1/4, 1/2, 1/4], [0, 0, 0]] 1
        [[[0], [255]]]) 0 1 0 : ℚ)) = 141 := by
    rw [hblur]
    norm_num [roundClamp255, chGet, pxGet, gridGet,
      show Int.toNat 141 = 141 from rfl]
  refine ⟨h1, h2, ?_⟩
  rw [h1, h2]
  norm_num

/-- C9 amended: the blend (1-mask)*original + mask*blurred is computed
in exact arithmetic and then truncated toward zero by
astype(np.uint8), not rounded to nearest; for mask values in the
interval from 0 to 1 and uint8 inputs the blend always lies between 0
and 255, so the cast's wraparound never fires and no clamping is
needed. -/
theorem C9_amended (k : List (List ℚ)) (r : ℕ)
    (img : List (List (List ℕ))) (mask : List (List ℚ)) (hh ww nc y x c : ℕ)
    (himg : RectI img hh ww nc) (hmask : Rect mask hh ww)
    (hch : ∀ row ∈ img, ∀ px ∈ row, ∀ cv ∈ px, cv ≤ 255)
    (hm01 : ∀ row ∈ mask, ∀ v ∈ row, 0 ≤ v ∧ v ≤ 1)
    (hy : y < hh) (hx : x < ww) (hc : c < nc) :
    chGet (apply_depth_blur_optimized k r img mask) y x c =
        Int.toNat ⌊(1 - gridGet mask y x) * (chGet img y x c : ℚ) +
          gridGet mask y x * (chGet (imgBlurU8 k r img) y x c : ℚ)⌋ ∧
      0 ≤ (1 - gridGet mask y x) * (chGet img y x c : ℚ) +
          gridGet mask y x * (chGet (imgBlurU8 k r img) y x c : ℚ) ∧
      (1 - gridGet mask y x) * (chGet img y x c : ℚ) +
          gridGet mask y x * (chGet (imgBlurU8 k r img) y x c : ℚ) ≤ 255 := by
  have hym : y < mask.length := by rw [hmask.1]; exact hy
  have hmrow : mask.getD y [] ∈ mask := by
    rw [List.getD_eq_getElem _ _ hym]; exact List.getElem_mem hym
  have hxm : x < (mask.getD y []).length := by
    rw [hmask.2 _ hmrow]; exact hx
  have hmem : (mask.getD y []).getD x 0 ∈ mask.getD y [] := by
    rw [List.getD_eq_getElem _ _ hxm]; exact List.getElem_mem hxm
  have hmval : 0 ≤ gridGet mask y x ∧ gridGet mask y x ≤ 1 :=
    hm01 _ hmrow _ hmem
  have hyi : y < img.length := by rw [himg.1]; exact hy
  have hirow : img.getD y [] ∈ img := by
    rw [List.getD_eq_getElem _ _ hyi]; exact List.getElem_mem hyi
  have hxi : x < (img.getD y []).length := by
    rw [(himg.2 _ hirow).1]; exact hx
  have hpx : (img.getD y []).getD x [] ∈ img.getD y [] := by
    rw [List.getD_eq_getElem _ _ hxi]; exact List.getElem_mem hxi
  have ha : chGet img y x c ≤ 255 := by
    unfold chGet pxGet
    exact getD_le255 (fun v hv => hch _ hirow _ hpx _ hv) c
  have hb : chGet (imgBlurU8 k r img) y x c ≤ 255 :=
    imgBlurU8_chGet_le k r img y x c
  have ha2 : (chGet img y x c : ℚ) ≤ 255 := by exact_mod_cast ha
  have hb2 : (chGet (imgBlurU8 k r img) y x c : ℚ) ≤ 255 := by
    exact_mod_cast hb
  have h1m : (0 : ℚ) ≤ 1 - gridGet mask y x := by linarith [hmval.2]
  have h0 : 0 ≤ (1 - gridGet mask y x) * (chGet img y x c : ℚ) +
      gridGet mask y x * (chGet (imgBlurU8 k r img) y x c : ℚ) :=
    add_nonneg (mul_nonneg h1m (Nat.cast_nonneg _))
      (mul_nonneg hmval.1 (Nat.cast_nonneg _))
  have h255 : (1 - gridGet mask y x) * (chGet img y x c : ℚ) +
      gridGet mask y x * (chGet (imgBlurU8 k r img) y x c : ℚ) ≤ 255 := by
    have t1 : (1 - gridGet mask y x) * (chGet img y x c : ℚ) ≤
        (1 - gridGet mask y x) * 255 := mul_le_mul_of_nonneg_left ha2 h1m
    have t2 : gridGet mask y x * (chGet (imgBlurU8 k r img) y x c : ℚ) ≤
        gridGet mask y x * 255 := mul_le_mul_of_nonneg_left hb2 hmval.1
    nlinarith
  exact ⟨by rw [apply_opt_chGet k r img mask hh ww nc y x c himg hmask
      hy hx hc, npToUint8_eq_floor h0 h255], h0, h255⟩

/-- Witness for C9 amended: trivial 1x1 kernel, one pixel with channel
value 200, mask value 1/2. -/
theorem C9_witness :
    chGet (apply_depth_blur_optimized [[1]] 0 [[[200]]] [[1/2]]) 0 0 0 =
        Int.toNat ⌊(1 - gridGet [[1/2]] 0 0) * (chGet [[[200]]] 0 0 0 : ℚ) +
          gridGet [[1/2]] 0 0 *
            (chGet (imgBlurU8 [[1]] 0 [[[200]]]) 0 0 0 : ℚ)⌋ ∧
      0 ≤ (1 - gridGet [[1/2]] 0 0) * (chGet [[[200]]] 0 0 0 : ℚ) +
          gridGet [[1/2]] 0 0 *
            (chGet (imgBlurU8 [[1]] 0 [[[200]]]) 0 0 0 : ℚ) ∧
      (1 - gridGet [[1/2]] 0 0) * (chGet [[[200]]] 0 0 0 : ℚ) +
          gridGet [[1/2]] 0 0 *
            (chGet (imgBlurU8 [[1]] 0 [[[200]]]) 0 0 0 : ℚ) ≤ 255 :=
  C9_amended [[1]] 0 [[[200]]] [[1/2]] 1 1 1 0 0 0
    ⟨rfl, by simp⟩ ⟨rfl, by simp⟩ (by simp)
    (by norm_num) (by norm_num) (by norm_num) (by norm_num)

/-! ### C10 -/

theorem range_map_getD {α : Type} (f : ℕ → α) (d : α) (n i : ℕ)
    (hi : i < n) : ((List.range n).map f).getD i d = f i := by
  have hi2 : i < ((List.range n).map f).length := by simpa using hi
  rw [List.getD_eq_getElem _ _ hi2, List.getElem_map, List.getElem_range]

/-- C10: in the naive per-pixel compositor (main.py lines 129-156),
a pixel whose blur-mask entry is not strictly positive is never
reassigned; it only passes through the float32 copy and the final
astype(np.uint8), which is the identity on uint8 channel values. -/
theorem C10_zero_mask_pixel_unchanged (gauss : ℕ → List (List ℚ))
    (img : List (List (List ℕ))) (mask : List (List ℚ)) (maxR y x : ℕ)
    (hy : y < img.length) (hx : x < (img.getD y []).length)
    (hm : ¬ 0 < gridGet mask y x)
    (hch : ∀ cv ∈ pxGet img y x, cv ≤ 255) :
    pxGet (apply_depth_blur gauss img mask maxR) y x = pxGet img y x := by
  have houter : (apply_depth_blur gauss img mask maxR).getD y [] =
      (List.range ((img.getD y []).length)).map (fun x2 =>
        if 0 < gridGet mask y x2 then
          List.zipWith (fun (cv bv : ℕ) =>
            npToUint8 ((1 - gridGet mask y x2) * (cv : ℚ) +
              gridGet mask y x2 * (bv : ℚ)))
            (pxGet img y x2)
            (pxGet ((blur_levels gauss img maxR).getD
              (min (Int.toNat ⌊gridGet mask y x2 *
                ((blur_levels gauss img maxR).length : ℚ)⌋)
                ((blur_levels gauss img maxR).length - 1)) []) y x2)
        else (pxGet img y x2).map (fun (cv : ℕ) => npToUint8 (cv : ℚ))) := by
    simp only [apply_depth_blur]
    exact range_map_getD _ [] img.length y hy
  show ((apply_depth_blur gauss img mask maxR).getD y []).getD x [] =
    pxGet img y x
  rw [houter, range_map_getD _ [] ((img.getD y []).length) x hx, if_neg hm]
  rw [List.map_congr_left (fun cv hcv => npToUint8_coe (hch cv hcv))]
  exact List.map_id' _

/-- Witness for C10 at a single-pixel image with mask 0. -/
theorem C10_witness :
    pxGet (apply_depth_blur (fun _ => [[1]]) [[[7, 8, 9]]] [[0]] 1) 0 0 =
      pxGet [[[7, 8, 9]]] 0 0 :=
  C10_zero_mask_pixel_unchanged (fun _ => [[1]]) [[[7, 8, 9]]] [[0]] 1 0 0
    (by norm_num) (by norm_num) (by norm_num [gridGet])
    (by norm_num [pxGet])

/-! ### C4 -/

theorem npMedian_mem_bounds {l : List ℚ} {q : ℚ}
    (hq : npMedian l = some q) (hlo : ∀ v ∈ l, 0 ≤ v)
    (hhi : ∀ v ∈ l, v ≤ 1) : 0 ≤ q ∧ q ≤ 1 := by
  have hperm := List.perm_insertionSort (fun a b => a ≤ b) l
  have hels : ∀ v ∈ List.insertionSort (fun a b => a ≤ b) l,
      0 ≤ v ∧ v ≤ 1 := by
    intro v hv
    have hvl : v ∈ l := hperm.mem_iff.mp hv
    exact ⟨hlo v hvl, hhi v hvl⟩
  simp only [npMedian] at hq
  set s := List.insertionSort (fun a b => a ≤ b) l with hs
  by_cases h0 : s.length = 0
  · rw [if_pos h0] at hq
    cases hq
  · rw [if_neg h0] at hq
    have hn : 0 < s.length := Nat.pos_of_ne_zero h0
    have hidx : s.length / 2 < s.length := Nat.div_lt_self hn (by norm_num)
    have hmem2 : s.getD (s.length / 2) 0 ∈ s := by
      rw [List.getD_eq_getElem _ _ hidx]
      exact List.getElem_mem hidx
    by_cases hp : s.length % 2 = 1
    · rw [if_pos hp] at hq
      injection hq with h
      exact h ▸ hels _ hmem2
    · rw [if_neg hp] at hq
      injection hq with h
      have hidx1 : s.length / 2 - 1 < s.length :=
        lt_of_le_of_lt (Nat.sub_le _ _) hidx
      have hmem1 : s.getD (s.length / 2 - 1) 0 ∈ s := by
        rw [List.getD_eq_getElem _ _ hidx1]
        exact List.getElem_mem hidx1
      have b1 := hels _ hmem1
      have b2 := hels _ hmem2
      rw [← h]
      constructor
      · linarith [b1.1, b2.1]
      · linarith [b1.2, b2.2]

theorem argmax_foldl_lt (l : List ℕ) (n : ℕ) :
    ∀ (idxs : List ℕ) (b : ℕ), b < n → (∀ i ∈ idxs, i < n) →
      idxs.foldl
        (fun best i => if l.getD best 0 < l.getD i 0 then i else best) b < n := by
  intro idxs
  induction idxs with
  | nil => intro b hb _; exact hb
  | cons i t ih =>
    intro b hb hall
    show t.foldl _ (if l.getD b 0 < l.getD i 0 then i else b) < n
    apply ih
    · by_cases hc : l.getD b 0 < l.getD i 0
      · rw [if_pos hc]; exact hall i (List.mem_cons_self _ _)
      · rw [if_neg hc]; exact hb
    · intro j hj
      exact hall j (List.mem_cons_of_mem _ hj)

theorem argmaxFirst_lt {l : List ℕ} (h0 : 0 < l.length) :
    argmaxFirst l < l.length := by
  unfold argmaxFirst
  exact argmax_foldl_lt l l.length (List.range l.length) 0 h0
    (fun i hi => List.mem_range.mp hi)

theorem histCounts_length (l : List ℚ) : (histCounts l).length = 50 := by
  simp [histCounts]

theorem mode_estimate_bounds {l : List ℚ} (hne : l ≠ [])
    (hmn : listMin l ≠ listMax l) (hlo : ∀ v ∈ l, 0 ≤ v)
    (hhi : ∀ v ∈ l, v ≤ 1) :
    0 ≤ mode_estimate l ∧ mode_estimate l ≤ 1 := by
  have hlo2 : histLo l = listMin l := if_neg hmn
  have hhi2 : histHi l = listMax l := if_neg hmn
  have hmn0 : 0 ≤ listMin l := hlo _ (listMin_mem hne)
  have hmx1 : listMax l ≤ 1 := hhi _ (listMax_mem hne)
  have hltmm : listMin l < listMax l :=
    lt_of_le_of_ne (listMin_le_listMax hne) hmn
  have hi49 : argmaxFirst (histCounts l) ≤ 49 := by
    have h2 := argmaxFirst_lt (l := histCounts l)
      (by rw [histCounts_length]; norm_num)
    rw [histCounts_length] at h2
    omega
  have hiq : ((argmaxFirst (histCounts l) : ℕ) : ℚ) ≤ 49 := by
    exact_mod_cast hi49
  have hiq0 : (0 : ℚ) ≤ ((argmaxFirst (histCounts l) : ℕ) : ℚ) :=
    Nat.cast_nonneg _
  have hd : (0 : ℚ) < listMax l - listMin l := sub_pos.mpr hltmm
  simp only [mode_estimate]
  rw [hlo2, hhi2]
  have t1 : 0 ≤ ((argmaxFirst (histCounts l) : ℕ) : ℚ) *
      (listMax l - listMin l) / 50 :=
    div_nonneg (mul_nonneg hiq0 (le_of_lt hd)) (by norm_num)
  have t2 : 0 ≤ (((argmaxFirst (histCounts l) : ℕ) : ℚ) + 1) *
      (listMax l - listMin l) / 50 :=
    div_nonneg (mul_nonneg (by linarith) (le_of_lt hd)) (by norm_num)
  have u1 : ((argmaxFirst (histCounts l) : ℕ) : ℚ) *
      (listMax l - listMin l) / 50 ≤ listMax l - listMin l := by
    rw [div_le_iff₀ (by norm_num : (0 : ℚ) < 50)]
    nlinarith
  have u2 : (((argmaxFirst (histCounts l) : ℕ) : ℚ) + 1) *
      (listMax l - listMin l) / 50 ≤ listMax l - listMin l := by
    rw [div_le_iff₀ (by norm_num : (0 : ℚ) < 50)]
    nlinarith
  constructor
  · linarith
  · linarith

theorem center_region_subset {m : List (List ℚ)} {v : ℚ}
    (hv : v ∈ gvals (center_region m)) : v ∈ gvals m := by
  unfold gvals center_region at hv
  obtain ⟨row, hrow, hvrow⟩ := List.mem_flatten.mp hv
  obtain ⟨row0, hrow0, rfl⟩ := List.mem_map.mp hrow
  have hrow0m : row0 ∈ m :=
    List.mem_of_mem_drop (List.mem_of_mem_take hrow0)
  have hvr : v ∈ row0 :=
    List.mem_of_mem_drop (List.mem_of_mem_take hvrow)
  exact List.mem_flatten.mpr ⟨row0, hrow0m, hvr⟩

set_option maxRecDepth 10000 in
theorem find_singleton {m : List (List ℚ)} {v : ℚ}
    (hc : gvals (center_region m) = [v]) :
    find_subject_focus_plane m = some (v + 1/200) := by
  have hmed : npMedian [v] = some v := by
    simp [npMedian, List.insertionSort, List.orderedInsert]
  have hlo : histLo [v] = v - 1/2 := by simp [histLo, listMin, listMax]
  have hhi : histHi [v] = v + 1/2 := by simp [histHi, listMin, listMax]
  have hbin : binIdx (v - 1/2) (v + 1/2) v = 25 := by
    unfold binIdx
    have e1 : v - (v - 1/2) = 1/2 := by ring
    have e2 : (v + 1/2) - (v - 1/2) = 1 := by ring
    rw [e1, e2]
    norm_num [show Int.toNat 25 = 25 from rfl]
  have hcounts : histCounts [v] =
      (List.range 50).map (fun i => if 25 = i then 1 else 0) := by
    unfold histCounts
    apply List.map_congr_left
    intro i _
    rw [hlo, hhi]
    simp only [List.filter_singleton, hbin]
    by_cases h : 25 = i <;> simp [h]
  have hargmax : argmaxFirst ((List.range 50).map
      (fun i => if 25 = i then 1 else 0)) = 25 := by decide
  have hmode : mode_estimate [v] = v + 1/100 := by
    simp only [mode_estimate]
    rw [hlo, hhi, hcounts, hargmax]
    push_cast
    ring
  simp only [find_subject_focus_plane, hc, hmed, hmode]
  congr 1
  ring

/-- C4 counterexample: on the 2x2 all-one normalized depth map the
central sub-region is the single value 1, numpy pads the degenerate
histogram range to the interval from 0.5 to 1.5, the fullest bin is
bin 25 with midpoint 1.01, and the returned focus plane is
(1 + 1.01)/2 = 1.005, outside the interval from 0 to 1 that the claim
promises. -/
theorem C4_counterexample :
    find_subject_focus_plane [[1, 1], [1, 1]] = some (201/200) ∧
      ¬ (201/200 : ℚ) ≤ 1 := by
  constructor
  · have h := find_singleton (m := [[1, 1], [1, 1]]) (v := 1) rfl
    rw [h]
    norm_num
  · norm_num

/-- C4 amended: the estimator returns exactly the average of the
median of the central sub-region and the midpoint of the fullest
50-bin histogram bin, and that value lies between 0 and 1 provided the
central sub-region is nonempty and NOT constant (for a constant
sub-region numpy pads the histogram range by one half in each
direction and the result can leave the unit interval, as the
counterexample shows). -/
theorem C4_amended (m : List (List ℚ))
    (hvals : ∀ v ∈ gvals m, 0 ≤ v ∧ v ≤ 1)
    (hne : gvals (center_region m) ≠ [])
    (hnc : listMin (gvals (center_region m)) ≠
      listMax (gvals (center_region m))) :
    ∃ med, npMedian (gvals (center_region m)) = some med ∧
      find_subject_focus_plane m =
        some ((med + mode_estimate (gvals (center_region m))) / 2) ∧
      0 ≤ (med + mode_estimate (gvals (center_region m))) / 2 ∧
      (med + mode_estimate (gvals (center_region m))) / 2 ≤ 1 := by
  obtain ⟨med, hmed⟩ := npMedian_some hne
  have hlo : ∀ v ∈ gvals (center_region m), 0 ≤ v :=
    fun v hv => (hvals v (center_region_subset hv)).1
  have hhi : ∀ v ∈ gvals (center_region m), v ≤ 1 :=
    fun v hv => (hvals v (center_region_subset hv)).2
  have hmb := npMedian_mem_bounds hmed hlo hhi
  have hmob := mode_estimate_bounds hne hnc hlo hhi
  refine ⟨med, hmed, ?_, ?_, ?_⟩
  · simp only [find_subject_focus_plane, hmed]
  · linarith [hmb.1, hmob.1]
  · linarith [hmb.2, hmob.2]

/-- Witness for C4 amended on a 3x3 map whose 2x2 central sub-region
holds the values 0, 1, 1, 1. -/
theorem C4_witness :
    ∃ med, npMedian (gvals (center_region
        [[0, 1, 0], [1, 1, 0], [0, 0, 0]])) = some med ∧
      find_subject_focus_plane [[0, 1, 0], [1, 1, 0], [0, 0, 0]] =
        some ((med + mode_estimate (gvals (center_region
          [[0, 1, 0], [1, 1, 0], [0, 0, 0]]))) / 2) ∧
      0 ≤ (med + mode_estimate (gvals (center_region
          [[0, 1, 0], [1, 1, 0], [0, 0, 0]]))) / 2 ∧
      (med + mode_estimate (gvals (center_region
          [[0, 1, 0], [1, 1, 0], [0, 0, 0]]))) / 2 ≤ 1 :=
  C4_amended [[0, 1, 0], [1, 1, 0], [0, 0, 0]]
    (by norm_num [gvals])
    (by rw [show gvals (center_region [[0, 1, 0], [1, 1, 0], [0, 0, 0]]) =
      [0, 1, 1, 1] from rfl]; simp)
    (by rw [show gvals (center_region [[0, 1, 0], [1, 1, 0], [0, 0, 0]]) =
      [0, 1, 1, 1] from rfl]; norm_num [listMin, listMax])
